import Mathlib

/-!
Verification of the xLearn data-ingestion readers (src/reader/reader.h).

The repository source under src/ contains only reader.h: the class layout and the
inline member functions (Reader::SetShuffle, InmemReader::SetShuffle,
OndiskReader::SetShuffle, OndiskReader::SetThreadPool, OndiskReader::SetBlockSize)
are embedded from that source.  The bodies of Samples, Reset, the initialization
routines, check_file_format, hash_binary, read_block and shrink_block live in
reader.cc, which is not in the repository snapshot; those operations are modelled
from the words of the specification and each such definition is marked
"Modelled from the spec:".

Rows are modelled abstractly for the in-memory reader and as raw newline-terminated
byte sequences (List Char) for the on-disk block pipeline.
-/

namespace XLearn

/-- Modelled from the spec: the Parser collaborator (spec sections 1-2) applied to one
block of text: it splits the block into newline-terminated rows (the concrete parser
implementations and reader.cc are not under src/; reader.h line 113 only declares the
Parser pointer).  A trailing fragment without a newline is parsed as a final row. -/
def splitLines : List Char → List (List Char)
  | [] => []
  | c :: rest =>
    if c = '\n' then [] :: splitLines rest
    else
      match splitLines rest with
      | [] => [[c]]
      | l :: ls => (c :: l) :: ls

/-- A line-oriented source file built from its records: each record is followed by one
newline character (spec section 6: line-oriented text source). -/
def encodeRecords : List (List Char) → List Char
  | [] => []
  | r :: rs => r ++ '\n' :: encodeRecords rs

/-- shrink_block (declared at reader.h line 270; its body in reader.cc is not under
src/).  Modelled from the spec: "truncate to the last complete record boundary"
(section 4.4 step 2): every character after the last newline of the block is dropped
and pushed back to the file. -/
def shrink_block (block : List Char) : List Char :=
  (block.reverse.dropWhile (fun c => c != '\n')).reverse

/-- One read step of the producer loop read_block (declared at reader.h line 269; its
body in reader.cc is not under src/).  Modelled from the spec (section 4.4): read up
to block-capacity bytes; when the chunk stops short of the end of the file it may have
cut a record, so it is truncated to the last complete record boundary and no partial
row reaches the Parser. -/
def readChunk (bs : Nat) (rem : List Char) : List Char :=
  if rem.length ≤ bs then rem else shrink_block (rem.take bs)

/-- OndiskReader (reader.h lines 195-274): the block size, the source file, the unread
remainder of the file behind the file pointer, and the shuffle flag inherited from
Reader.  The thread pool, mutex and condition variables of the source realize the
hand-off of batches between the two threads and are abstracted away: the model is the
sequential batch stream the consumer observes (spec section 5 ordering guarantee). -/
structure OndiskReader where
  block_size : Nat
  file : List Char
  rem : List Char
  shuffle : Bool

/-- OndiskReader::Samples (reader.h line 206; body in reader.cc not under src/).
Modelled from the spec (section 4.4): the consumer receives the batch parsed from the
next produced block, zero rows exactly at end of source.  When the producer cannot
advance because no record boundary fits inside the block, no rows are ever produced;
this stuck state is modelled as a zero-row return. -/
def OndiskReader.Samples (r : OndiskReader) : List (List Char) × OndiskReader :=
  if r.rem = [] then ([], r)
  else if readChunk r.block_size r.rem = [] then ([], r)
  else (splitLines (readChunk r.block_size r.rem),
        { r with rem := r.rem.drop (readChunk r.block_size r.rem).length })

/-- Driver of one full pass: repeatedly call Samples until it returns zero rows,
collecting the batches.  Fuel bounds the iteration; every productive step consumes at
least one byte of the remainder. -/
def OndiskReader.passFuel : Nat → OndiskReader → List (List (List Char))
  | 0, _ => []
  | fuel + 1, r =>
    if (OndiskReader.Samples r).1 = [] then []
    else (OndiskReader.Samples r).1 :: OndiskReader.passFuel fuel (OndiskReader.Samples r).2

/-- One full pass of the on-disk reader: all batches returned by successive Samples
calls until the zero-row return. -/
def OndiskReader.pass (r : OndiskReader) : List (List (List Char)) :=
  OndiskReader.passFuel r.rem.length r

/-- OndiskReader::Reset (reader.h line 209; body in reader.cc not under src/).
Modelled from the spec (section 4.4): reposition the source to its start and re-arm
the producer loop. -/
def OndiskReader.Reset (r : OndiskReader) : OndiskReader :=
  { r with rem := r.file }

/-- OndiskReader::SetShuffle, reader.h lines 212-217: a shuffle request is rejected;
the flag is unconditionally set to false, and LOG(ERROR) fires exactly when the
argument was true.  The second component records whether the warning was logged; the
call returns normally in both cases. -/
def OndiskReader.SetShuffle (r : OndiskReader) (b : Bool) : OndiskReader × Bool :=
  ({ r with shuffle := false }, b)

/-- Pre-initialization configuration of an OndiskReader (reader.h lines 229-243): the
thread-pool handle (none models a null pointer) and the block size, both unset until
the corresponding setter has run successfully. -/
structure OndiskConfig where
  pool : Option Nat
  block_size : Option Nat

/-- OndiskReader::SetThreadPool, reader.h lines 235-238: CHECK_NOTNULL(pool) aborts
the process on a null handle; the abort is modelled as an error result, returned
before any value is stored. -/
def OndiskConfig.SetThreadPool (c : OndiskConfig) (p : Option Nat) : Except String OndiskConfig :=
  match p with
  | none => Except.error ("CHECK_NOTNULL(pool) failed")
  | some q => Except.ok { c with pool := some q }

/-- OndiskReader::SetBlockSize, reader.h lines 240-243: CHECK_GT(size, 0) aborts the
process on a non-positive size; the abort is modelled as an error result, returned
before any value is stored. -/
def OndiskConfig.SetBlockSize (c : OndiskConfig) (size : Nat) : Except String OndiskConfig :=
  if 0 < size then Except.ok { c with block_size := some size }
  else Except.error ("CHECK_GT(size, 0) failed")

/-- OndiskReader initialization (reader.h line 203; body in reader.cc not under src/).
Modelled from the spec (section 6): a worker-pool handle and a positive block size
must have been supplied before this call; proceeding without them is a contract
error. -/
def OndiskConfig.initReader (c : OndiskConfig) (file : List Char) : Except String OndiskReader :=
  match c.pool, c.block_size with
  | some _, some bs => Except.ok ⟨bs, file, file, false⟩
  | _, _ => Except.error ("pool and block size must be set before initialization")

/-- InmemReader (reader.h lines 142-187): the preloaded table data_buf_, the shuffle
order vector order_, the sampling cursor pos_, the per-call batch size num_samples_,
and the shuffle flag inherited from Reader. -/
structure InmemReader (α : Type) where
  data_buf : List α
  order : List Nat
  pos : Nat
  num_samples : Nat
  shuffle : Bool

/-- The logical row sequence served by the in-memory reader: the rows of the preloaded
table in the order given by the order_ vector (spec section 4.3: logical order is
governed by the permutation). -/
def InmemReader.logicalRows {α : Type} (r : InmemReader α) : List α :=
  r.order.filterMap (fun i => r.data_buf[i]?)

/-- InmemReader::Samples (reader.h line 152; body in reader.cc not under src/).
Modelled from the spec (section 4.3): return the window of num_samples_ consecutive
logical rows at the cursor (shorter at the end, empty exactly at exhaustion) and
advance the cursor by the number of rows returned. -/
def InmemReader.Samples {α : Type} (r : InmemReader α) : List α × InmemReader α :=
  (((InmemReader.logicalRows r).drop r.pos).take r.num_samples,
   { r with pos := r.pos + (((InmemReader.logicalRows r).drop r.pos).take r.num_samples).length })

/-- Driver of one full pass of the in-memory reader: repeatedly call Samples until it
returns zero rows, collecting the batches; fuel bounds the iteration. -/
def InmemReader.passFuel {α : Type} : Nat → InmemReader α → List (List α)
  | 0, _ => []
  | fuel + 1, r =>
    if (InmemReader.Samples r).1.isEmpty then []
    else (InmemReader.Samples r).1 :: InmemReader.passFuel fuel (InmemReader.Samples r).2

/-- One full pass of the in-memory reader: all batches returned by successive Samples
calls until the zero-row return. -/
def InmemReader.pass {α : Type} (r : InmemReader α) : List (List α) :=
  InmemReader.passFuel (r.order.length + 1) r

/-- InmemReader::SetShuffle, reader.h lines 158-163: store the flag; when the stored
flag is true and the order vector is nonempty, std::random_shuffle permutes the order
vector in place.  The permutation actually drawn by std::random_shuffle is passed in
as perm. -/
def InmemReader.SetShuffle {α : Type} (perm : List Nat → List Nat)
    (r : InmemReader α) (b : Bool) : InmemReader α :=
  if b = true ∧ r.order ≠ [] then { r with shuffle := b, order := perm r.order }
  else { r with shuffle := b }

/-- InmemReader::Reset (reader.h line 155; body in reader.cc not under src/).
Modelled from the spec (section 3): rewind the cursor to the beginning; the order is
regenerated when shuffling is enabled and kept stable otherwise (section 9 leaves
per-epoch reshuffling open; the claims proved here hold under either choice). -/
def InmemReader.Reset {α : Type} (perm : List Nat → List Nat) (r : InmemReader α) : InmemReader α :=
  { r with pos := 0, order := if r.shuffle then perm r.order else r.order }

/-- Modelled from the spec: the staleness token of a source file (section 6; section 9
recommends a content hash).  It is modelled as the source content itself, an injective
hash. -/
def stalenessToken (text : List Char) : List Char := text

/-- Binary cache file (spec section 6): a staleness token plus the serialized record
table. -/
structure BinaryCache where
  token : List Char
  rows : List (List Char)

/-- Writing the binary cache after a text parse (spec section 4.3): the parsed rows
are serialized keyed by the staleness token of the source they came from. -/
def writeCache (text : List Char) : BinaryCache :=
  ⟨stalenessToken text, splitLines text⟩

/-- InmemReader::hash_binary (reader.h line 177; body in reader.cc not under src/).
Modelled from the spec (sections 4.3 and 6): a cache is valid only when its staleness
token matches the current source content; a mismatched token is never valid. -/
def hash_binary (text : List Char) (cache : Option BinaryCache) : Bool :=
  match cache with
  | none => false
  | some c => decide (c.token = stalenessToken text)

/-- InmemReader preload, init_from_binary and init_from_txt (reader.h lines 180-183;
bodies in reader.cc not under src/).  Modelled from the spec (section 4.3): a valid
cache is deserialized directly; otherwise the text is re-parsed. -/
def inmemPreload (text : List Char) (cache : Option BinaryCache) : List (List Char) :=
  match cache with
  | some c => if c.token = stalenessToken text then c.rows else splitLines text
  | none => splitLines text

/-- Structural shape of the leading content of a source file (spec section 4.2): how
many colon-separated qualifiers each feature token carries (0 for plain CSV columns,
1 for index:value pairs, 2 for field:index:value triples) and whether a leading label
token is present. -/
structure SourceShape where
  colons_per_entry : Nat
  leading_label : Bool

/-- Reader::check_file_format (reader.h lines 121-126; body in reader.cc not under
src/).  Modelled from the spec (section 4.2): classify the source into exactly one of
the three supported formats from its structural shape, record whether a label is
present, and fail fatally on an unrecognized structure. -/
def check_file_format (s : SourceShape) : Except String (String × Bool) :=
  match s.colons_per_entry with
  | 0 => Except.ok ("csv", s.leading_label)
  | 1 => Except.ok ("libsvm", s.leading_label)
  | 2 => Except.ok ("ffm", s.leading_label)
  | _ => Except.error ("unknown file format")

/-- The reader state that exists only after a successful initialization: the chosen
format name and the label flag (reader.h lines 100 and 117). -/
structure InitializedReader where
  format : String
  has_label : Bool

/-- Reader initialization, format-detection part (reader.h line 89; bodies in
reader.cc not under src/).  Modelled from the spec (sections 4.1 and 4.2): format
detection runs inside initialization and an unrecognized format fails here,
synchronously, before any reader state exists on which Samples could be called. -/
def readerInit (s : SourceShape) : Except String InitializedReader :=
  match check_file_format s with
  | Except.error e => Except.error e
  | Except.ok (f, l) => Except.ok ⟨f, l⟩

/-! ### Helper lemmas: parsing, encoding and block shrinking -/

theorem splitLines_append_newline (l rest : List Char) (hl : '\n' ∉ l) :
    splitLines (l ++ '\n' :: rest) = l :: splitLines rest := by
  induction l with
  | nil => simp [splitLines]
  | cons c t ih =>
    have hc : c ≠ '\n' := fun h => hl (by simp [h])
    have ht : '\n' ∉ t := fun h => hl (List.mem_cons_of_mem _ h)
    rw [List.cons_append, splitLines, if_neg hc, ih ht]

theorem splitLines_encodeRecords (recs : List (List Char)) (h : ∀ r ∈ recs, '\n' ∉ r) :
    splitLines (encodeRecords recs) = recs := by
  induction recs with
  | nil => rfl
  | cons r rs ih =>
    have hr : '\n' ∉ r := h r (by simp)
    have hrs : ∀ x ∈ rs, '\n' ∉ x := fun x hx => h x (by simp [hx])
    rw [encodeRecords, splitLines_append_newline r _ hr, ih hrs]

theorem encodeRecords_append (a b : List (List Char)) :
    encodeRecords (a ++ b) = encodeRecords a ++ encodeRecords b := by
  induction a with
  | nil => rfl
  | cons r rs ih => simp [encodeRecords, ih]

theorem encodeRecords_eq_nil_iff (recs : List (List Char)) :
    encodeRecords recs = [] ↔ recs = [] := by
  cases recs with
  | nil => simp [encodeRecords]
  | cons r rs => simp [encodeRecords]

theorem encodeRecords_ends_newline (recs : List (List Char)) (h : recs ≠ []) :
    ∃ xs, encodeRecords recs = xs ++ ['\n'] := by
  induction recs with
  | nil => exact absurd rfl h
  | cons r rs ih =>
    cases rs with
    | nil => exact ⟨r, by simp [encodeRecords]⟩
    | cons s ss =>
      obtain ⟨xs, hxs⟩ := ih (by simp)
      refine ⟨r ++ '\n' :: xs, ?_⟩
      rw [encodeRecords, hxs]
      simp

theorem dropWhile_append_all {α : Type} {p : α → Bool} (l1 l2 : List α)
    (h : ∀ c ∈ l1, p c = true) :
    List.dropWhile p (l1 ++ l2) = List.dropWhile p l2 := by
  induction l1 with
  | nil => rfl
  | cons c t ih =>
    rw [List.cons_append, List.dropWhile_cons, if_pos (h c (by simp))]
    exact ih (fun x hx => h x (by simp [hx]))

theorem shrink_block_ends_newline (xs : List Char) :
    shrink_block (xs ++ ['\n']) = xs ++ ['\n'] := by
  rw [shrink_block, List.reverse_append]
  simp [List.dropWhile_cons]

theorem shrink_block_append_no_newline (xs ys : List Char) (h : '\n' ∉ ys) :
    shrink_block (xs ++ ys) = shrink_block xs := by
  rw [shrink_block, shrink_block, List.reverse_append, dropWhile_append_all]
  intro c hc
  have hcy : c ∈ ys := List.mem_reverse.mp hc
  have : c ≠ '\n' := fun hcn => h (hcn ▸ hcy)
  simpa using this

theorem take_encodeRecords (recs : List (List Char)) :
    ∀ n : Nat, (∀ r ∈ recs, '\n' ∉ r) →
      ∃ tl1 tl2 part, recs = tl1 ++ tl2 ∧
        (encodeRecords recs).take n = encodeRecords tl1 ++ part ∧ '\n' ∉ part := by
  induction recs with
  | nil =>
    intro n h
    exact ⟨[], [], [], rfl, by simp [encodeRecords], by simp⟩
  | cons r rs ih =>
    intro n h
    by_cases hn : n ≤ r.length
    · refine ⟨[], r :: rs, r.take n, rfl, ?_, ?_⟩
      · simp only [encodeRecords]
        rw [List.take_append_eq_append_take, Nat.sub_eq_zero_of_le hn]
        simp
      · intro hmem
        exact h r (by simp) (List.take_subset n r hmem)
    · push_neg at hn
      obtain ⟨tl1, tl2, part, h1, h2, h3⟩ :=
        ih (n - r.length - 1) (fun x hx => h x (by simp [hx]))
      refine ⟨r :: tl1, tl2, part, by simp [h1], ?_, h3⟩
      rw [encodeRecords, List.take_append_eq_append_take,
          List.take_of_length_le (Nat.le_of_lt hn)]
      obtain ⟨k, hk⟩ : ∃ k, n - r.length = k + 1 := ⟨n - r.length - 1, by omega⟩
      rw [hk, List.take_succ_cons]
      have hk2 : k = n - r.length - 1 := by omega
      rw [hk2, h2, encodeRecords]
      simp

theorem readChunk_step (recs : List (List Char)) (bs : Nat)
    (hne : recs ≠ [])
    (hnl : ∀ r ∈ recs, '\n' ∉ r)
    (hbs : ∀ r ∈ recs, r.length + 1 ≤ bs) :
    ∃ tl1 tl2, recs = tl1 ++ tl2 ∧ tl1 ≠ [] ∧
      readChunk bs (encodeRecords recs) = encodeRecords tl1 := by
  by_cases hlen : (encodeRecords recs).length ≤ bs
  · exact ⟨recs, [], by simp, hne, by rw [readChunk, if_pos hlen]⟩
  · push_neg at hlen
    cases recs with
    | nil => exact absurd rfl hne
    | cons r rs =>
      have hrbs : r.length + 1 ≤ bs := hbs r (by simp)
      obtain ⟨tl1, tl2, part, h1, h2, h3⟩ :=
        take_encodeRecords rs (bs - r.length - 1) (fun x hx => hnl x (by simp [hx]))
      refine ⟨r :: tl1, tl2, by simp [h1], by simp, ?_⟩
      rw [readChunk, if_neg (Nat.not_le.mpr hlen)]
      have hchunk : (encodeRecords (r :: rs)).take bs
          = encodeRecords (r :: tl1) ++ part := by
        rw [encodeRecords, List.take_append_eq_append_take,
            List.take_of_length_le (by omega)]
        obtain ⟨k, hk⟩ : ∃ k, bs - r.length = k + 1 := ⟨bs - r.length - 1, by omega⟩
        rw [hk, List.take_succ_cons]
        have hk2 : k = bs - r.length - 1 := by omega
        rw [hk2, h2, encodeRecords]
        simp
      rw [hchunk, shrink_block_append_no_newline _ _ h3]
      obtain ⟨xs, hxs⟩ := encodeRecords_ends_newline (r :: tl1) (by simp)
      rw [hxs, shrink_block_ends_newline]

theorem ondisk_Samples_eq (recs : List (List Char)) (r : OndiskReader)
    (hrem : r.rem = encodeRecords recs) (hne : recs ≠ [])
    (hnl : ∀ x ∈ recs, '\n' ∉ x) (hbs : ∀ x ∈ recs, x.length + 1 ≤ r.block_size) :
    ∃ tl1 tl2, recs = tl1 ++ tl2 ∧ tl1 ≠ [] ∧
      OndiskReader.Samples r = (tl1, { r with rem := encodeRecords tl2 }) := by
  obtain ⟨tl1, tl2, heq, htl1, hchunk⟩ := readChunk_step recs r.block_size hne hnl hbs
  have hremne : r.rem ≠ [] := by
    rw [hrem]
    exact fun hc => hne ((encodeRecords_eq_nil_iff recs).mp hc)
  have hkeepne : encodeRecords tl1 ≠ [] :=
    fun hc => htl1 ((encodeRecords_eq_nil_iff tl1).mp hc)
  refine ⟨tl1, tl2, heq, htl1, ?_⟩
  rw [OndiskReader.Samples, if_neg hremne, hrem, hchunk, if_neg hkeepne]
  have hsplit : splitLines (encodeRecords tl1) = tl1 :=
    splitLines_encodeRecords tl1 (fun x hx => hnl x (heq ▸ List.mem_append_left tl2 hx))
  have hdrop : (encodeRecords recs).drop (encodeRecords tl1).length = encodeRecords tl2 := by
    rw [heq, encodeRecords_append, List.drop_left]
  rw [hsplit, hdrop]

theorem ondisk_passFuel_flatten :
    ∀ (fuel : Nat) (recs : List (List Char)) (r : OndiskReader),
      r.rem = encodeRecords recs →
      (∀ x ∈ recs, '\n' ∉ x) →
      (∀ x ∈ recs, x.length + 1 ≤ r.block_size) →
      (encodeRecords recs).length ≤ fuel →
      (OndiskReader.passFuel fuel r).flatten = recs := by
  intro fuel
  induction fuel with
  | zero =>
    intro recs r hrem hnl hbs hlen
    have h0 : encodeRecords recs = [] := List.length_eq_zero.mp (Nat.le_zero.mp hlen)
    have h1 : recs = [] := (encodeRecords_eq_nil_iff recs).mp h0
    simp [OndiskReader.passFuel, h1]
  | succ fuel ih =>
    intro recs r hrem hnl hbs hlen
    by_cases hrecs : recs = []
    · subst hrecs
      have : r.rem = [] := by rw [hrem]; rfl
      simp [OndiskReader.passFuel, OndiskReader.Samples, this]
    · obtain ⟨tl1, tl2, heq, htl1, hsmp⟩ := ondisk_Samples_eq recs r hrem hrecs hnl hbs
      rw [OndiskReader.passFuel, hsmp]
      simp only [if_neg htl1]
      rw [List.flatten_cons]
      have hnl2 : ∀ x ∈ tl2, '\n' ∉ x :=
        fun x hx => hnl x (heq ▸ List.mem_append_right tl1 hx)
      have hbs2 : ∀ x ∈ tl2, x.length + 1 ≤ r.block_size :=
        fun x hx => hbs x (heq ▸ List.mem_append_right tl1 hx)
      have hlen2 : (encodeRecords tl2).length ≤ fuel := by
        have he : encodeRecords recs = encodeRecords tl1 ++ encodeRecords tl2 := by
          rw [heq, encodeRecords_append]
        have hpos : 0 < (encodeRecords tl1).length := by
          cases h : encodeRecords tl1 with
          | nil => exact absurd ((encodeRecords_eq_nil_iff tl1).mp h) htl1
          | cons a l => simp
        have := congrArg List.length he
        rw [List.length_append] at this
        omega
      rw [ih tl2 { r with rem := encodeRecords tl2 } rfl hnl2 hbs2 hlen2]
      exact heq.symm

theorem ondisk_pass_flatten (recs : List (List Char)) (bs : Nat) (file : List Char)
    (hnl : ∀ x ∈ recs, '\n' ∉ x) (hbs : ∀ x ∈ recs, x.length + 1 ≤ bs) :
    ((⟨bs, file, encodeRecords recs, false⟩ : OndiskReader).pass).flatten = recs :=
  ondisk_passFuel_flatten _ recs _ rfl hnl hbs (Nat.le_refl _)

theorem ondisk_Samples_empty_iff (recs : List (List Char)) (bs : Nat) (file : List Char)
    (hnl : ∀ x ∈ recs, '\n' ∉ x) (hbs : ∀ x ∈ recs, x.length + 1 ≤ bs) :
    ((⟨bs, file, encodeRecords recs, false⟩ : OndiskReader).Samples).1 = [] ↔ recs = [] := by
  constructor
  · intro h
    by_contra hne
    obtain ⟨tl1, tl2, heq, htl1, hsmp⟩ :=
      ondisk_Samples_eq recs (⟨bs, file, encodeRecords recs, false⟩ : OndiskReader) rfl hne hnl hbs
    rw [hsmp] at h
    exact htl1 h
  · intro h
    subst h
    simp [OndiskReader.Samples, encodeRecords]

/-! ### Helper lemmas: the in-memory reader -/

theorem filterMap_getElem_range {α : Type} (l : List α) :
    (List.range l.length).filterMap (fun i => l[i]?) = l := by
  induction l with
  | nil => rfl
  | cons a t ih =>
    rw [List.length_cons, List.range_succ_eq_map, List.filterMap_cons]
    simp only [List.getElem?_cons_zero]
    rw [List.filterMap_map]
    have hfun : (fun i => (a :: t)[i]?) ∘ Nat.succ = fun i => t[i]? := by
      funext i
      simp [Function.comp]
    rw [hfun, ih]

theorem take_drop_chain {α : Type} (l : List α) : ∀ n : Nat,
    l.take n ++ l.drop (l.take n).length = l := by
  induction l with
  | nil => intro n; simp
  | cons a t ih =>
    intro n
    cases n with
    | zero => simp
    | succ m =>
      rw [List.take_succ_cons, List.length_cons, List.cons_append, List.drop_succ_cons, ih m]

theorem sum_map_length {α : Type} (L : List (List α)) :
    (L.map List.length).sum = L.flatten.length := by
  induction L with
  | nil => rfl
  | cons x xs ih =>
    rw [List.map_cons, List.sum_cons, List.flatten_cons, List.length_append, ih]

theorem inmem_Samples_empty_iff {α : Type} (r : InmemReader α) (hns : 0 < r.num_samples) :
    (InmemReader.Samples r).1 = [] ↔ (InmemReader.logicalRows r).length ≤ r.pos := by
  have h1 : (InmemReader.Samples r).1
      = ((InmemReader.logicalRows r).drop r.pos).take r.num_samples := rfl
  rw [h1, List.take_eq_nil_iff, List.drop_eq_nil_iff]
  constructor
  · rintro (h | h)
    · exact absurd h hns.ne'
    · exact h
  · exact fun h => Or.inr h

theorem inmem_passFuel_flatten {α : Type} :
    ∀ (fuel : Nat) (r : InmemReader α),
      0 < r.num_samples →
      (InmemReader.logicalRows r).length - r.pos ≤ fuel →
      (InmemReader.passFuel fuel r).flatten = (InmemReader.logicalRows r).drop r.pos := by
  intro fuel
  induction fuel with
  | zero =>
    intro r hns hlen
    have hle : (InmemReader.logicalRows r).length ≤ r.pos := by omega
    simp [InmemReader.passFuel, List.drop_eq_nil_iff.mpr hle]
  | succ fuel ih =>
    intro r hns hlen
    rcases hd : (InmemReader.logicalRows r).drop r.pos with _ | ⟨x, xs⟩
    · have hb : (InmemReader.Samples r).1 = [] := by
        simp [InmemReader.Samples, hd]
      rw [InmemReader.passFuel]
      rw [if_pos (by rw [hb]; rfl)]
      simp
    · have hbne : (InmemReader.Samples r).1 ≠ [] := by
        simp only [InmemReader.Samples, hd]
        rw [Ne, List.take_eq_nil_iff]
        push_neg
        exact ⟨hns.ne', by simp⟩
      rw [InmemReader.passFuel]
      rw [if_neg (by simpa [List.isEmpty_iff] using hbne)]
      rw [List.flatten_cons]
      have hpos : r.pos < (InmemReader.logicalRows r).length := by
        by_contra hcon
        push_neg at hcon
        rw [List.drop_eq_nil_iff.mpr hcon] at hd
        exact List.noConfusion hd
      have hblen : 1 ≤ (InmemReader.Samples r).1.length := by
        cases hb : (InmemReader.Samples r).1 with
        | nil => exact absurd hb hbne
        | cons y ys => simp
      have hlen2 : (InmemReader.logicalRows (InmemReader.Samples r).2).length
          - (InmemReader.Samples r).2.pos ≤ fuel := by
        have heq : InmemReader.logicalRows (InmemReader.Samples r).2
            = InmemReader.logicalRows r := rfl
        rw [heq]
        have hp2 : (InmemReader.Samples r).2.pos
            = r.pos + (InmemReader.Samples r).1.length := rfl
        omega
      rw [ih (InmemReader.Samples r).2 hns hlen2]
      have heq : InmemReader.logicalRows (InmemReader.Samples r).2
          = InmemReader.logicalRows r := rfl
      have hp2 : (InmemReader.Samples r).2.pos
          = r.pos + (InmemReader.Samples r).1.length := rfl
      rw [heq, hp2, ← List.drop_drop]
      have hb1 : (InmemReader.Samples r).1
          = ((InmemReader.logicalRows r).drop r.pos).take r.num_samples := rfl
      rw [hb1, take_drop_chain ((InmemReader.logicalRows r).drop r.pos) r.num_samples]
      exact hd

theorem inmem_pass_flatten {α : Type} (r : InmemReader α)
    (hns : 0 < r.num_samples) (hpos : r.pos = 0) :
    (r.pass).flatten = InmemReader.logicalRows r := by
  have h1 : (InmemReader.logicalRows r).length ≤ r.order.length :=
    List.length_filterMap_le _ _
  rw [InmemReader.pass, inmem_passFuel_flatten (r.order.length + 1) r hns (by omega),
      hpos, List.drop_zero]

theorem logicalRows_identity {α : Type} (rows : List α) (p ns : Nat) (b : Bool) :
    InmemReader.logicalRows (⟨rows, List.range rows.length, p, ns, b⟩ : InmemReader α) = rows :=
  filterMap_getElem_range rows

/-! ### Claim theorems -/

/-- C1 counterexample: an on-disk reader over the single-row source "aa\n" with block
size 1 (a positive block size, smaller than the byte length of the row): the sum of the
row counts of all Samples calls is 0, yet the source holds 1 row; the very first
Samples call returns zero rows although the source is not exhausted.  This refutes
the claim as stated for the OndiskReader variant. -/
theorem C1_counterexample :
    ((((⟨1, ['a', 'a', '\n'], ['a', 'a', '\n'], false⟩ : OndiskReader).pass).map
        List.length).sum = 0)
    ∧ (splitLines ['a', 'a', '\n']).length = 1
    ∧ ((⟨1, ['a', 'a', '\n'], ['a', 'a', '\n'], false⟩ : OndiskReader).Samples).1 = []
    ∧ (⟨1, ['a', 'a', '\n'], ['a', 'a', '\n'], false⟩ : OndiskReader).rem ≠ [] := by
  decide

/-- C1 (amended): for the in-memory reader with a positive batch size, Samples
returns zero exactly at exhaustion, the row counts of one full pass sum to the true
row count, and a pass after Reset again covers the whole source; the on-disk reader
satisfies the same three properties provided the block size is at least the encoded
byte length of every row (row bytes plus newline).  With a smaller block the producer
never reaches a record boundary and Samples returns zero prematurely. -/
theorem C1_amended (α : Type) (rows : List α) (ns : Nat) (recs : List (List Char)) (bs : Nat)
    (perm : List Nat → List Nat) (hns : 0 < ns)
    (hnl : ∀ x ∈ recs, '\n' ∉ x) (hbs : ∀ x ∈ recs, x.length + 1 ≤ bs) :
    ((((⟨rows, List.range rows.length, 0, ns, false⟩ : InmemReader α).pass).map
        List.length).sum = rows.length)
    ∧ (∀ p : Nat,
        (((⟨rows, List.range rows.length, p, ns, false⟩ : InmemReader α).Samples).1 = []
          ↔ rows.length ≤ p))
    ∧ (∀ p : Nat,
        (((InmemReader.Reset perm
            (⟨rows, List.range rows.length, p, ns, false⟩ : InmemReader α)).pass).map
              List.length).sum = rows.length)
    ∧ ((((⟨bs, encodeRecords recs, encodeRecords recs, false⟩ : OndiskReader).pass).map
          List.length).sum = recs.length)
    ∧ (∀ recs2 : List (List Char),
        (∀ x ∈ recs2, '\n' ∉ x) → (∀ x ∈ recs2, x.length + 1 ≤ bs) →
        (((⟨bs, encodeRecords recs, encodeRecords recs2, false⟩ : OndiskReader).Samples).1 = []
          ↔ recs2 = []))
    ∧ (∀ rem2 : List Char,
        ((((⟨bs, encodeRecords recs, rem2, false⟩ : OndiskReader).Reset).pass).map
            List.length).sum = recs.length) := by
  refine ⟨?_, ?_, ?_, ?_, ?_, ?_⟩
  · rw [sum_map_length, inmem_pass_flatten _ hns rfl, logicalRows_identity]
  · intro p
    rw [inmem_Samples_empty_iff _ hns, logicalRows_identity]
  · intro p
    have hres : InmemReader.Reset perm
        (⟨rows, List.range rows.length, p, ns, false⟩ : InmemReader α)
        = ⟨rows, List.range rows.length, 0, ns, false⟩ := rfl
    rw [hres, sum_map_length, inmem_pass_flatten _ hns rfl, logicalRows_identity]
  · rw [sum_map_length, ondisk_pass_flatten recs bs _ hnl hbs]
  · intro recs2 h1 h2
    exact ondisk_Samples_empty_iff recs2 bs _ h1 h2
  · intro rem2
    have hres : (⟨bs, encodeRecords recs, rem2, false⟩ : OndiskReader).Reset
        = ⟨bs, encodeRecords recs, encodeRecords recs, false⟩ := rfl
    rw [hres, sum_map_length, ondisk_pass_flatten recs bs _ hnl hbs]

/-- C1 witness: the amended claim applied at a two-row in-memory source and a one-row
on-disk source with block size 2. -/
theorem C1_amended_witness :
    (((( ⟨[5, 6], List.range ([5, 6] : List Nat).length, 0, 1, false⟩ :
        InmemReader Nat).pass).map List.length).sum = ([5, 6] : List Nat).length) :=
  (C1_amended Nat [5, 6] 1 [['a']] 2 id (by decide) (by decide) (by decide)).1

/-- C2 counterexample: with block size 2 (positive) and the single source row "aaa"
(4 encoded bytes) the on-disk pass yields no rows while the in-memory pass over the
same source yields the row: the cross-reader consistency claim fails when the block
size is smaller than the byte length of one row. -/
theorem C2_counterexample :
    (((⟨2, ['a', 'a', 'a', '\n'], ['a', 'a', 'a', '\n'], false⟩ : OndiskReader).pass).flatten
        = [])
    ∧ (((⟨splitLines ['a', 'a', 'a', '\n'],
          List.range (splitLines ['a', 'a', 'a', '\n']).length, 0, 1, false⟩ :
            InmemReader (List Char)).pass).flatten = [['a', 'a', 'a']])
    ∧ ([] : List (List Char)) ≠ [['a', 'a', 'a']] := by
  decide

/-- C2 (amended): for every source and every block size at least the encoded byte
length of every row, the concatenation of the on-disk batches over one full pass
equals the concatenation of the in-memory batches (shuffle disabled, any positive
batch size): no row is dropped, duplicated or split.  The original claim of "every
positive block size" fails below the longest row length (see the counterexample). -/
theorem C2_amended (recs : List (List Char)) (bs ns : Nat) (hns : 0 < ns)
    (hnl : ∀ x ∈ recs, '\n' ∉ x) (hbs : ∀ x ∈ recs, x.length + 1 ≤ bs) :
    ((⟨bs, encodeRecords recs, encodeRecords recs, false⟩ : OndiskReader).pass).flatten
      = ((⟨splitLines (encodeRecords recs),
            List.range (splitLines (encodeRecords recs)).length, 0, ns, false⟩ :
              InmemReader (List Char)).pass).flatten := by
  rw [ondisk_pass_flatten recs bs _ hnl hbs, inmem_pass_flatten _ hns rfl,
      logicalRows_identity, splitLines_encodeRecords recs hnl]

/-- C2 witness: the amended claim applied at a two-row source with block size 4 and
batch size 2. -/
theorem C2_amended_witness :
    ((⟨4, encodeRecords [['a'], ['b', 'c']],
        encodeRecords [['a'], ['b', 'c']], false⟩ : OndiskReader).pass).flatten
      = ((⟨splitLines (encodeRecords [['a'], ['b', 'c']]),
            List.range (splitLines (encodeRecords [['a'], ['b', 'c']])).length, 0, 2, false⟩ :
              InmemReader (List Char)).pass).flatten :=
  C2_amended [['a'], ['b', 'c']] 4 2 (by decide) (by decide) (by decide)

/-- C3: a cache produced from a source round-trips: it is accepted as valid and
deserializes to exactly the rows re-parsing that source yields; a stale cache, one
whose source changed after caching, is never accepted and the reader falls back to
re-parsing the current text. -/
theorem C3_cache_validity (t0 t1 : List Char) (hne : t0 ≠ t1) :
    hash_binary t0 (some (writeCache t0)) = true
    ∧ inmemPreload t0 (some (writeCache t0)) = splitLines t0
    ∧ hash_binary t1 (some (writeCache t0)) = false
    ∧ inmemPreload t1 (some (writeCache t0)) = splitLines t1 := by
  refine ⟨?_, ?_, ?_, ?_⟩
  · simp [hash_binary, writeCache, stalenessToken]
  · simp [inmemPreload, writeCache, stalenessToken]
  · simp [hash_binary, writeCache, stalenessToken, hne]
  · simp [inmemPreload, writeCache, stalenessToken, hne]

/-- C3 witness: the cache of source "a" is valid for "a" and rejected for the
mutated source "b". -/
theorem C3_cache_validity_witness :
    hash_binary ['a'] (some (writeCache ['a'])) = true
    ∧ inmemPreload ['a'] (some (writeCache ['a'])) = splitLines ['a']
    ∧ hash_binary ['b'] (some (writeCache ['a'])) = false
    ∧ inmemPreload ['b'] (some (writeCache ['a'])) = splitLines ['b'] :=
  C3_cache_validity ['a'] ['b'] (by decide)

/-- C4 counterexample: enabling shuffle (with the reversal as the drawn permutation)
and then disabling it leaves the shuffle flag false while the served order is the
reversed one, not the identity: the rows come out [20, 10] instead of the source
order [10, 20].  This refutes "the permutation is the identity whenever shuffling is
disabled". -/
theorem C4_counterexample :
    ((InmemReader.SetShuffle List.reverse
        (InmemReader.SetShuffle List.reverse
          (⟨[10, 20], [0, 1], 0, 2, false⟩ : InmemReader Nat) true) false).shuffle = false)
    ∧ (((InmemReader.SetShuffle List.reverse
        (InmemReader.SetShuffle List.reverse
          (⟨[10, 20], [0, 1], 0, 2, false⟩ : InmemReader Nat) true) false).pass).flatten
        = [20, 10])
    ∧ ([20, 10] : List Nat) ≠ [10, 20] := by
  decide

/-- C4 (amended): SetShuffle always stores the requested flag; SetShuffle(false)
leaves the current order vector unchanged (it does not restore the identity);
(re)enabling with a nonempty order freshly randomizes it with the drawn permutation;
and the order is the identity as long as shuffling was never enabled: a reader whose
order is the one set up at initialization serves the preloaded rows in source
order. -/
theorem C4_amended (α : Type) (perm : List Nat → List Nat) (r : InmemReader α) (b : Bool)
    (rows : List α) (ns : Nat) (hns : 0 < ns) :
    ((InmemReader.SetShuffle perm r b).shuffle = b)
    ∧ ((InmemReader.SetShuffle perm r false).order = r.order)
    ∧ (r.order ≠ [] → (InmemReader.SetShuffle perm r true).order = perm r.order)
    ∧ (((⟨rows, List.range rows.length, 0, ns, false⟩ : InmemReader α).pass).flatten = rows) := by
  refine ⟨?_, ?_, ?_, ?_⟩
  · rw [InmemReader.SetShuffle]
    split
    · rfl
    · rfl
  · rw [InmemReader.SetShuffle]
    rw [if_neg (by simp)]
  · intro h
    rw [InmemReader.SetShuffle, if_pos ⟨rfl, h⟩]
  · rw [inmem_pass_flatten _ hns rfl, logicalRows_identity]

/-- C4 witness: the amended claim applied at a concrete reader with a nonempty order
and the reversal permutation. -/
theorem C4_amended_witness :
    ((InmemReader.SetShuffle List.reverse
        (⟨[7, 8], [0, 1], 0, 1, false⟩ : InmemReader Nat) true).shuffle = true)
    ∧ ((InmemReader.SetShuffle List.reverse
        (⟨[7, 8], [0, 1], 0, 1, false⟩ : InmemReader Nat) false).order
          = (⟨[7, 8], [0, 1], 0, 1, false⟩ : InmemReader Nat).order)
    ∧ ((⟨[7, 8], [0, 1], 0, 1, false⟩ : InmemReader Nat).order ≠ []
        → (InmemReader.SetShuffle List.reverse
            (⟨[7, 8], [0, 1], 0, 1, false⟩ : InmemReader Nat) true).order
          = List.reverse (⟨[7, 8], [0, 1], 0, 1, false⟩ : InmemReader Nat).order)
    ∧ (((⟨[7, 8], List.range ([7, 8] : List Nat).length, 0, 1, false⟩ :
          InmemReader Nat).pass).flatten = [7, 8]) :=
  C4_amended Nat List.reverse (⟨[7, 8], [0, 1], 0, 1, false⟩ : InmemReader Nat) true
    [7, 8] 1 (by decide)

/-- C5: for every on-disk reader state and every boolean argument, after SetShuffle
the shuffle flag is false; LOG(ERROR) fires exactly when the argument was true; and
the rest of the reader state is untouched, so the operation continues non-fatally and
unshuffled. -/
theorem C5_ondisk_setshuffle_rejected (r : OndiskReader) (b : Bool) :
    ((OndiskReader.SetShuffle r b).1.shuffle = false)
    ∧ ((OndiskReader.SetShuffle r b).2 = b)
    ∧ ((OndiskReader.SetShuffle r b).1.block_size = r.block_size)
    ∧ ((OndiskReader.SetShuffle r b).1.file = r.file)
    ∧ ((OndiskReader.SetShuffle r b).1.rem = r.rem) :=
  ⟨rfl, rfl, rfl, rfl, rfl⟩

/-- C6: with shuffling enabled (any permutation drawn by std::random_shuffle), one
full pass of the in-memory reader is a permutation of the unshuffled pass over the
same source: the same multiset of rows, no row lost or duplicated. -/
theorem C6_shuffled_pass_perm (α : Type) (rows : List α) (ns : Nat)
    (perm : List Nat → List Nat) (hns : 0 < ns)
    (hperm : ∀ l : List Nat, List.Perm (perm l) l) :
    List.Perm
      (((InmemReader.SetShuffle perm
          (⟨rows, List.range rows.length, 0, ns, false⟩ : InmemReader α) true).pass).flatten)
      (((⟨rows, List.range rows.length, 0, ns, false⟩ : InmemReader α).pass).flatten) := by
  have hR : ((⟨rows, List.range rows.length, 0, ns, false⟩ : InmemReader α).pass).flatten
      = rows := by
    rw [inmem_pass_flatten _ hns rfl, logicalRows_identity]
  by_cases hrows : List.range rows.length = []
  · rw [InmemReader.SetShuffle, if_neg (by simp [hrows])]
    rw [hR]
    rw [inmem_pass_flatten _ hns rfl, logicalRows_identity]
  · rw [InmemReader.SetShuffle, if_pos ⟨rfl, hrows⟩]
    rw [hR]
    have hL : ((⟨rows, perm (List.range rows.length), 0, ns, true⟩ :
        InmemReader α).pass).flatten
        = InmemReader.logicalRows (⟨rows, perm (List.range rows.length), 0, ns, true⟩ :
            InmemReader α) :=
      inmem_pass_flatten _ hns rfl
    rw [hL]
    have hp : List.Perm (perm (List.range rows.length)) (List.range rows.length) :=
      hperm (List.range rows.length)
    have := List.Perm.filterMap (fun i => rows[i]?) hp
    rw [filterMap_getElem_range rows] at this
    exact this

/-- C6 witness: a three-row source with batch size 2 and the reversal as the drawn
permutation. -/
theorem C6_shuffled_pass_perm_witness :
    List.Perm
      (((InmemReader.SetShuffle List.reverse
          (⟨[1, 2, 3], List.range ([1, 2, 3] : List Nat).length, 0, 2, false⟩ :
            InmemReader Nat) true).pass).flatten)
      (((⟨[1, 2, 3], List.range ([1, 2, 3] : List Nat).length, 0, 2, false⟩ :
            InmemReader Nat).pass).flatten) :=
  C6_shuffled_pass_perm Nat [1, 2, 3] 2 List.reverse (by decide)
    (fun l => List.reverse_perm l)

/-- C7: with shuffling disabled, the pass obtained after a Reset is identical, batch
for batch and row for row, to the pass from the initial state, for both reader
variants.  The in-memory reader is reset from any cursor position the first pass left
behind (it keeps its order and rewinds the cursor); the on-disk reader is reset from
an arbitrary state — in particular the exhausted state at the end of the first pass,
whatever unread remainder it holds — and its pass afterwards equals the pass of the
freshly initialized reader over the same file with the same block size. -/
theorem C7_reset_determinism (α : Type) (r : InmemReader α) (perm : List Nat → List Nat)
    (p : Nat) (hsh : r.shuffle = false) (hpos : r.pos = 0)
    (od : OndiskReader) :
    ((InmemReader.Reset perm { r with pos := p }).pass = r.pass)
    ∧ ((od.Reset).pass
        = (⟨od.block_size, od.file, od.file, od.shuffle⟩ : OndiskReader).pass) := by
  constructor
  · have hres : InmemReader.Reset perm { r with pos := p } = r := by
      rw [InmemReader.Reset]
      cases r with
      | mk d o q n s =>
        simp only at hsh hpos
        simp [hsh, hpos]
    rw [hres]
  · have hres : od.Reset = ⟨od.block_size, od.file, od.file, od.shuffle⟩ := rfl
    rw [hres]

/-- C7 witness: a two-row in-memory reader reset after a pass that ended at cursor
position 2, and an on-disk reader reset from the exhausted state (empty remainder)
the first pass over "x\n" left behind, whose second pass equals the fresh pass. -/
theorem C7_reset_determinism_witness :
    ((InmemReader.Reset id { (⟨[4, 5], [0, 1], 0, 1, false⟩ : InmemReader Nat) with pos := 2 }).pass
        = (⟨[4, 5], [0, 1], 0, 1, false⟩ : InmemReader Nat).pass)
    ∧ (((⟨3, ['x', '\n'], [], false⟩ : OndiskReader).Reset).pass
        = (⟨3, ['x', '\n'], ['x', '\n'], false⟩ : OndiskReader).pass) :=
  C7_reset_determinism Nat (⟨[4, 5], [0, 1], 0, 1, false⟩ : InmemReader Nat) id 2 rfl rfl
    (⟨3, ['x', '\n'], [], false⟩ : OndiskReader)

/-- C8: SetThreadPool rejects a null pool handle and SetBlockSize rejects the only
non-positive unsigned size, 0, as fatal contract errors, in both cases before any
value is stored; a positive size is stored; and initialization without both a pool
and a block size is a contract error, while with both supplied it succeeds. -/
theorem C8_config_contract (c : OndiskConfig) (n : Nat) (f : List Char) (hn : 0 < n) :
    (∃ e, OndiskConfig.SetThreadPool c none = Except.error e)
    ∧ (∃ e, OndiskConfig.SetBlockSize c 0 = Except.error e)
    ∧ (OndiskConfig.SetBlockSize c n = Except.ok { c with block_size := some n })
    ∧ ((c.pool = none ∨ c.block_size = none) → ∃ e, OndiskConfig.initReader c f = Except.error e)
    ∧ (∀ q bs, c.pool = some q → c.block_size = some bs →
        OndiskConfig.initReader c f = Except.ok ⟨bs, f, f, false⟩) := by
  refine ⟨⟨_, rfl⟩, ⟨_, by rw [OndiskConfig.SetBlockSize, if_neg (by omega)]⟩,
    by rw [OndiskConfig.SetBlockSize, if_pos hn], ?_, ?_⟩
  · intro h
    rw [OndiskConfig.initReader]
    rcases hp : c.pool with _ | q
    · exact ⟨_, rfl⟩
    · rcases hb : c.block_size with _ | bs
      · exact ⟨_, rfl⟩
      · rcases h with h | h
        · exact absurd hp (h ▸ Option.noConfusion)
        · rw [h] at hb
          exact Option.noConfusion hb
  · intro q bs hp hb
    rw [OndiskConfig.initReader, hp, hb]

/-- C8 witness: an empty configuration with size 3 rejects the null pool and the zero
size, stores the size 3, and refuses to initialize. -/
theorem C8_config_contract_witness :
    ∃ e, OndiskConfig.initReader (⟨none, none⟩ : OndiskConfig) ['x'] = Except.error e :=
  ((C8_config_contract (⟨none, none⟩ : OndiskConfig) 3 ['x'] (by decide)).2.2.2.1
    (Or.inl rfl))

/-- C9: an input whose structure matches none of the supported formats makes
initialization fail with an error raised synchronously at initialization time (no
reader state comes into existence on which Samples could later be called), and a
recognized input yields exactly one of the three supported format names together
with the label flag read off the source. -/
theorem C9_format_detection (s : SourceShape) :
    (∀ e, check_file_format s = Except.error e → readerInit s = Except.error e)
    ∧ (3 ≤ s.colons_per_entry → ∃ e, readerInit s = Except.error e)
    ∧ (∀ fmt lbl, check_file_format s = Except.ok (fmt, lbl) →
        (fmt = "libsvm" ∨ fmt = "ffm" ∨ fmt = "csv") ∧ lbl = s.leading_label
          ∧ readerInit s = Except.ok ⟨fmt, lbl⟩) := by
  obtain ⟨k, lbl⟩ := s
  refine ⟨?_, ?_, ?_⟩
  · intro e he
    rw [readerInit, he]
  · intro h3
    match k, h3 with
    | (m + 3), _ =>
      refine ⟨"unknown file format", ?_⟩
      rw [readerInit]
      have hc : check_file_format ⟨m + 3, lbl⟩ = Except.error ("unknown file format") := rfl
      rw [hc]
  · intro fmt l hok
    match k, hok with
    | 0, hok =>
      have h1 : fmt = "csv" ∧ l = lbl := by
        have := hok
        rw [check_file_format] at this
        exact ⟨(Prod.mk.injEq _ _ _ _ ▸ Except.ok.inj this).1.symm,
          ((Prod.ext_iff.mp (Except.ok.inj this)).2).symm⟩
      refine ⟨Or.inr (Or.inr h1.1), h1.2, ?_⟩
      rw [readerInit, hok, h1.1, h1.2]
    | 1, hok =>
      have h1 : fmt = "libsvm" ∧ l = lbl := by
        have := hok
        rw [check_file_format] at this
        exact ⟨(Prod.ext_iff.mp (Except.ok.inj this)).1.symm,
          ((Prod.ext_iff.mp (Except.ok.inj this)).2).symm⟩
      refine ⟨Or.inl h1.1, h1.2, ?_⟩
      rw [readerInit, hok, h1.1, h1.2]
    | 2, hok =>
      have h1 : fmt = "ffm" ∧ l = lbl := by
        have := hok
        rw [check_file_format] at this
        exact ⟨(Prod.ext_iff.mp (Except.ok.inj this)).1.symm,
          ((Prod.ext_iff.mp (Except.ok.inj this)).2).symm⟩
      refine ⟨Or.inr (Or.inl h1.1), h1.2, ?_⟩
      rw [readerInit, hok, h1.1, h1.2]

/-- C9 witness: a source whose feature tokens carry five colon-qualifiers is rejected
at initialization. -/
theorem C9_format_detection_witness :
    ∃ e, readerInit (⟨5, true⟩ : SourceShape) = Except.error e :=
  (C9_format_detection (⟨5, true⟩ : SourceShape)).2.1 (by decide)

/-- C10: calling SetShuffle(true) on an in-memory reader whose order vector is empty
(as it is before initialization populates it) sets the shuffle flag but performs no
randomization: the order vector stays unchanged for every argument; randomization can
only have happened when the order vector was nonempty. -/
theorem C10_setshuffle_empty_order (α : Type) (perm : List Nat → List Nat)
    (r : InmemReader α) (b : Bool) (h : r.order = []) :
    ((InmemReader.SetShuffle perm r true).shuffle = true)
    ∧ ((InmemReader.SetShuffle perm r b).order = r.order)
    ∧ (∀ (r2 : InmemReader α) (b2 : Bool),
        (InmemReader.SetShuffle perm r2 b2).order ≠ r2.order → r2.order ≠ []) := by
  refine ⟨?_, ?_, ?_⟩
  · rw [InmemReader.SetShuffle, if_neg (by simp [h])]
  · rw [InmemReader.SetShuffle, if_neg (by simp [h])]
  · intro r2 b2 hd hord
    exact hd (by rw [InmemReader.SetShuffle, if_neg (by simp [hord])])

/-- C10 witness: a pre-initialization reader with an empty order vector and the
reversal permutation. -/
theorem C10_setshuffle_empty_order_witness :
    ((InmemReader.SetShuffle List.reverse
        (⟨[3, 4], [], 0, 1, false⟩ : InmemReader Nat) true).shuffle = true)
    ∧ ((InmemReader.SetShuffle List.reverse
        (⟨[3, 4], [], 0, 1, false⟩ : InmemReader Nat) true).order
          = (⟨[3, 4], [], 0, 1, false⟩ : InmemReader Nat).order)
    ∧ (∀ (r2 : InmemReader Nat) (b2 : Bool),
        (InmemReader.SetShuffle List.reverse r2 b2).order ≠ r2.order → r2.order ≠ []) :=
  C10_setshuffle_empty_order Nat List.reverse
    (⟨[3, 4], [], 0, 1, false⟩ : InmemReader Nat) true rfl

end XLearn
